import Mathlib

/-!
Shallow embedding of the MRP planning engine of `src/main.py` (`run_mrp` and its
helpers, lines 26-44 and 63-182).  Pydantic `int` fields become `Int`, Python
dicts become association lists, the per-item period loop becomes a structural
recursion, and Python exceptions (the explicit `HTTPException` for a cyclic BOM
as well as the uncaught `KeyError` / `IndexError` escapes) become `Except.error`
values carrying a message string.
-/

namespace MRP

/-- Embedding of the pydantic model `Item` (src/main.py lines 26-33). -/
structure Item where
  id : String
  name : String
  lt : Int
  ss : Int
  oh : Int
  ls : Int
  type : String
deriving Repr, DecidableEq

/-- Embedding of the pydantic model `BomLine` (src/main.py lines 35-38). -/
structure BomLine where
  parent : String
  child : String
  qty : Int
deriving Repr, DecidableEq

/-- The MPS dict `{item id: {period: demand}}`.  The source keys the inner dict
by the decimal string `str(t)`; only keys of that shape are ever read, so the
inner keys are modelled directly as the period number. -/
abbrev Mps := List (String × List (Nat × Int))

/-- Embedding of the pydantic model `MRPInput` (src/main.py lines 40-44).  A
negative `horizon` makes the Python period loop `range(1, horizon+1)` empty,
exactly like `horizon = 0`, so the horizon is modelled as `Nat`. -/
structure MRPInput where
  items : List Item
  bom : List BomLine
  mps : Mps
  horizon : Nat
deriving Repr, DecidableEq

/-- One per-period record of the planning grid (src/main.py lines 103-111). -/
structure PeriodRecord where
  period : Nat
  grossReq : Int
  schedReceipt : Int
  projAvail : Int
  netReq : Int
  plannedOrderReceipt : Int
  plannedOrderRelease : Int
deriving Repr, DecidableEq

/-- The `results` dict: item id to completed row, in insertion order. -/
abbrev Results := List (String × List PeriodRecord)

/-- Keep the first occurrence of every element, dropping later duplicates.
This is how a `networkx` graph accumulates its node set: `add_nodes_from` /
`add_edge` insert a node only if it is not present yet. -/
def dedupKeepFirst (seen : List String) : List String → List String
  | [] => []
  | x :: xs =>
    if seen.contains x then dedupKeepFirst seen xs
    else x :: dedupKeepFirst (x :: seen) xs

/-- The node set of the BOM digraph `G` (src/main.py lines 66-69): all item
ids, then every edge endpoint, in insertion order without duplicates. -/
def graphNodes (d : MRPInput) : List String :=
  dedupKeepFirst []
    (d.items.map Item.id ++ d.bom.map BomLine.parent ++ d.bom.map BomLine.child)

/-- The edge set of the BOM digraph, as (parent, child) pairs. -/
def edgePairs (bom : List BomLine) : List (String × String) :=
  bom.map (fun e => (e.parent, e.child))

/-- Does node `n` have an incoming edge whose source is still in `remaining`? -/
def hasIncoming (edges : List (String × String)) (remaining : List String)
    (n : String) : Bool :=
  edges.any (fun e => e.2 == n && remaining.contains e.1)

/-- First node of `remaining` with no incoming edge from `remaining`. -/
def pickNoIncoming (remaining : List String) (edges : List (String × String)) :
    Option String :=
  remaining.find? (fun n => !hasIncoming edges remaining n)

/-- Kahn's algorithm with explicit fuel: repeatedly remove a node with no
incoming edge among the remaining nodes.  `none` means some nodes could never
be removed, i.e. the graph has a cycle.  This embeds both
`nx.is_directed_acyclic_graph` and `nx.topological_sort`
(src/main.py lines 72 and 84): the former fails exactly when no topological
order exists. -/
def kahnAux (edges : List (String × String)) : Nat → List String →
    Option (List String)
  | 0, remaining => if remaining.isEmpty then some [] else none
  | fuel + 1, remaining =>
    if remaining.isEmpty then some [] else
      match pickNoIncoming remaining edges with
      | none => none
      | some n => (kahnAux edges fuel (remaining.erase n)).map (fun l => n :: l)

/-- Topological sort of the BOM digraph, `none` on a cyclic graph. -/
def kahnSort (nodes : List String) (edges : List (String × String)) :
    Option (List String) :=
  kahnAux edges nodes.length nodes

/-- The detail string of the `HTTPException` raised for a cyclic BOM
(src/main.py line 73). -/
def cyclicBOMmsg : String :=
  "Errore: La BOM contiene cicli infiniti."

/-- The dict comprehension `{i.id: i for i in data.items}` (src/main.py
line 92); on duplicate ids the last item wins, as in a Python dict. -/
def items_map (items : List Item) (item_id : String) : Option Item :=
  (items.filter (fun i => i.id == item_id)).getLast?

/-- `data.mps.get(item_id, {}).get(str(t), 0)` (src/main.py line 114). -/
def mpsVal (mps : Mps) (item_id : String) (t : Nat) : Int :=
  match mps.lookup item_id with
  | some m => (m.lookup t).getD 0
  | none => 0

/-- `list(G.predecessors(item_id))` (src/main.py line 119): the distinct
parents of `item_id`, in first-insertion order. -/
def predecessorsOf (bom : List BomLine) (item_id : String) : List String :=
  dedupKeepFirst [] ((bom.filter (fun e => e.child == item_id)).map BomLine.parent)

/-- `G.get_edge_data(parent, item_id)['qty']` (src/main.py lines 123-124).
Repeated `add_edge` calls on the same (parent, child) pair overwrite the `qty`
attribute, so the last BOM line with this pair wins. -/
def edgeQty (bom : List BomLine) (parent item_id : String) : Int :=
  match (bom.filter (fun e => e.parent == parent && e.child == item_id)).getLast? with
  | some e => e.qty
  | none => 0

/-- `results[parent][t-1]["plannedOrderRelease"]` (src/main.py line 129).
Every row stored in `results` has exactly `horizon` records and `t ≤ horizon`,
so the Python index `t-1` is always in range; out of range is mapped to 0. -/
def releaseAt (rows : List PeriodRecord) (t : Nat) : Int :=
  ((rows[t - 1]?).map PeriodRecord.plannedOrderRelease).getD 0

/-- The dependent-demand loop over the predecessors (src/main.py lines
119-130): each parent already present in `results` contributes its period-`t`
planned order release times the edge quantity. -/
def dependentDemand (bom : List BomLine) (results : Results) (item_id : String)
    (t : Nat) : Int :=
  (predecessorsOf bom item_id).foldl
    (fun acc parent =>
      match results.lookup parent with
      | some prow => acc + releaseAt prow t * edgeQty bom parent item_id
      | none => acc)
    0

/-- `current_inventory if t == 1 else results[item_id][t-2]["projAvail"]`
(src/main.py line 133).  During an item's own forward pass `results` does not
yet contain `item_id` (it is stored only at line 180), so for `t ≥ 2` the
lookup raises `KeyError` in Python; that escape is the `Except.error`. -/
def priorBalance (results : Results) (item_id : String) (oh : Int) (t : Nat) :
    Except String Int :=
  if t = 1 then .ok oh
  else
    match results.lookup item_id with
    | none => .error (("KeyError: ") ++ item_id)
    | some rows =>
      match rows[t - 2]? with
      | some r => .ok r.projAvail
      | none => .error ("IndexError: list index out of range")

/-- Round `num / den` (with `den > 0`) to the nearest integer, ties to even:
the rounding used by IEEE-754 binary64 arithmetic. -/
def rneDiv (num den : Int) : Int :=
  let q := num / den
  let r := num % den
  if 2 * r < den then q
  else if den < 2 * r then q + 1
  else if q % 2 = 0 then q else q + 1

/-- Double `y` (tracking the binary exponent `e`) until `x / y < 2^53`. -/
def scaleDown (x : Int) : Nat → Int → Int → Int × Int
  | 0, y, e => (y, e)
  | fuel + 1, y, e =>
    if y * 2 ^ 53 ≤ x then scaleDown x fuel (y * 2) (e + 1) else (y, e)

/-- Double `x` (tracking the binary exponent `e`) until `x / y ≥ 2^52`. -/
def scaleUp (y : Int) : Nat → Int → Int → Int × Int
  | 0, x, e => (x, e)
  | fuel + 1, x, e =>
    if x < y * 2 ^ 52 then scaleUp y fuel (x * 2) (e - 1) else (x, e)

/-- Round an integer to the nearest binary64 value (ties to even): exact below
`2^53`, otherwise keep the top 53 bits, rounding the rest to nearest-even
against the smallest power of two `y` with `|x| / y < 2^53`.  Every float
produced by the program is integral (ceilings of floats and sums and products
of integral floats round to integral floats), so binary64 values are
represented by their exact integer value.  The binary64 overflow threshold
(`2^1024`, where NumPy would raise) is not modelled; all traced inputs stay
far below it. -/
def fl64 (x : Int) : Int :=
  if x.natAbs < 2 ^ 53 then x
  else
    let p := scaleDown (x.natAbs : Int) 1200 1 0
    rneDiv x p.1 * p.1

/-- The value of `np.ceil(a / b)` as the program computes it for `a ≥ 1`,
`b ≥ 1` (the only reachable case: `net ≥ 1`, `ls ≥ 2`): Python's true
division `a / b` is correctly rounded to the nearest binary64 `m * 2^e` with
`2^52 ≤ m < 2^53` (ties to even), and the ceiling of that float — which is
itself exactly representable — is taken.  The fuel bounds the scaling loops;
it covers all quotients below `2^1100`, far past binary64 overflow (where the
program would raise instead). -/
def ceilFloatDiv (a b : Int) : Int :=
  if a ≤ 0 ∨ b ≤ 0 then 0
  else
    let p := scaleDown a 1200 b 0
    let q := scaleUp p.1 1200 a p.2
    let m := rneDiv q.1 p.1
    if 0 ≤ q.2 then m * 2 ^ q.2.toNat
    else (m + 2 ^ (-q.2).toNat - 1) / 2 ^ (-q.2).toNat

/-- The body of the period loop (src/main.py lines 102-170): gross
requirements from the MPS and from parents' releases, projection, netting and
lot sizing.  All record fields are Python ints (exact, arbitrary precision)
except on the fixed-lot path: `receipt = np.ceil(net / item.ls) * item.ls`
(line 146) is binary64 arithmetic — the true division is rounded to the
nearest float, its ceiling times `fl64 item.ls` is rounded again — and the
`np.float64` receipt then makes line 148's re-projection float arithmetic,
each partial sum rounded to binary64, which is how `projAvail` can end up
below the safety stock for quotients beyond the 53-bit significand.  On the
lot-for-lot path `receipt` is a Python int and every operation is exact.
(`prev_proj` and `grossReq` are ints whenever this code is reached: the only
float source is a fixed-lot receipt, and its contagion into a child's gross
requirement through a parent's release is represented by its exact integer
value.) -/
def computePeriod (bom : List BomLine) (mps : Mps) (results : Results)
    (item : Item) (item_id : String) (t : Nat) : Except String PeriodRecord :=
  let grossReq := mpsVal mps item_id t + dependentDemand bom results item_id t
  let schedReceipt : Int := 0
  match priorBalance results item_id item.oh t with
  | .error e => .error e
  | .ok prev_proj =>
    let projected := prev_proj + schedReceipt - grossReq
    if projected < item.ss then
      let net := item.ss - projected
      let receipt :=
        if item.ls ≤ 1 then net
        else fl64 (ceilFloatDiv net item.ls * fl64 item.ls)
      let projected2 :=
        if item.ls ≤ 1 then prev_proj + schedReceipt + receipt - grossReq
        else fl64 (fl64 (fl64 (prev_proj + schedReceipt) + receipt)
          - fl64 grossReq)
      .ok { period := t, grossReq := grossReq, schedReceipt := schedReceipt,
            projAvail := projected2,
            netReq := max 0 net, plannedOrderReceipt := receipt,
            plannedOrderRelease := 0 }
    else
      .ok { period := t, grossReq := grossReq, schedReceipt := schedReceipt,
            projAvail := projected, netReq := max 0 0,
            plannedOrderReceipt := 0, plannedOrderRelease := 0 }

/-- The forward pass `for t in range(1, horizon + 1)` (src/main.py lines
102-170): `n` periods remain, the next period is `t`, `row` holds the records
built so far. -/
def forwardAux (bom : List BomLine) (mps : Mps) (results : Results)
    (item : Item) (item_id : String) : Nat → Nat → List PeriodRecord →
    Except String (List PeriodRecord)
  | _, 0, row => .ok row
  | t, n + 1, row =>
    match computePeriod bom mps results item item_id t with
    | .error e => .error e
    | .ok pd => forwardAux bom mps results item item_id (t + 1) n (row ++ [pd])

/-- The full forward pass of one item over periods `1..horizon`. -/
def forwardPass (bom : List BomLine) (mps : Mps) (results : Results)
    (item : Item) (item_id : String) (horizon : Nat) :
    Except String (List PeriodRecord) :=
  forwardAux bom mps results item item_id 1 horizon []

/-- One step of the offsetting loop (src/main.py lines 173-178): if the
period `t_idx` receipt is positive, add it to the release of period
`t_idx - lt`.  The source only guards `release_period_idx >= 0`; a
nonnegative index beyond the end of the list (possible only with a negative
lead time) raises `IndexError` in Python. -/
def offsetStep (r : List PeriodRecord) (t_idx : Nat) (lt : Int) :
    Except String (List PeriodRecord) :=
  let receipt_qty := ((r[t_idx]?).map PeriodRecord.plannedOrderReceipt).getD 0
  if 0 < receipt_qty then
    let release_period_idx : Int := (t_idx : Int) - lt
    if 0 ≤ release_period_idx then
      match r[release_period_idx.toNat]? with
      | some rec =>
        .ok (r.set release_period_idx.toNat
          { rec with plannedOrderRelease := rec.plannedOrderRelease + receipt_qty })
      | none => .error ("IndexError: list assignment index out of range")
    else .ok r
  else .ok r

/-- Run the offsetting steps for the listed period indices in order. -/
def offsetAux (lt : Int) : List Nat → List PeriodRecord →
    Except String (List PeriodRecord)
  | [], r => .ok r
  | t_idx :: rest, r =>
    match offsetStep r t_idx lt with
    | .error e => .error e
    | .ok r1 => offsetAux lt rest r1

/-- The post-processing offsetting pass over a completed row (src/main.py
lines 172-178), iterating `t_idx` over `0..row.length-1`. -/
def offsetPass (row : List PeriodRecord) (lt : Int) :
    Except String (List PeriodRecord) :=
  offsetAux lt (List.range row.length) row

/-- The main loop over `sorted_nodes` (src/main.py lines 95-180): skip ids
without an item, otherwise run the forward pass and the offsetting pass and
store the finished row in `results`. -/
def planItems (d : MRPInput) : List String → Results → Except String Results
  | [], results => .ok results
  | item_id :: rest, results =>
    match items_map d.items item_id with
    | none => planItems d rest results
    | some item =>
      match forwardPass d.bom d.mps results item item_id d.horizon with
      | .error e => .error e
      | .ok row =>
        match offsetPass row item.lt with
        | .error e => .error e
        | .ok row2 => planItems d rest (results ++ [(item_id, row2)])

/-- The endpoint `run_mrp` (src/main.py lines 63-182): build the digraph,
abort on a cyclic BOM, topologically sort, then plan every known item in
order.  (The `levels` dict of lines 76-80 is a dead placeholder and the
`except` fallback of line 86 is unreachable once the graph is acyclic.) -/
def run_mrp (d : MRPInput) : Except String Results :=
  match kahnSort (graphNodes d) (edgePairs d.bom) with
  | none => .error cyclicBOMmsg
  | some sorted_nodes => planItems d sorted_nodes []

end MRP
namespace MRP

/-- Forget the `plannedOrderRelease` field (set it to 0). -/
def eraseRelease (r : PeriodRecord) : PeriodRecord :=
  { r with plannedOrderRelease := 0 }

/-- Two rows agree everywhere except possibly in `plannedOrderRelease`. -/
structure SameButRelease (r r' : List PeriodRecord) : Prop where
  length_eq : r'.length = r.length
  rec_eq : ∀ i : Nat, (r'[i]?).map eraseRelease = (r[i]?).map eraseRelease

theorem SameButRelease.refl (r : List PeriodRecord) : SameButRelease r r :=
  ⟨Eq.refl _, fun _ => Eq.refl _⟩

theorem SameButRelease.trans {r1 r2 r3 : List PeriodRecord}
    (h1 : SameButRelease r1 r2) (h2 : SameButRelease r2 r3) :
    SameButRelease r1 r3 :=
  ⟨h2.length_eq.trans h1.length_eq, fun i => (h2.rec_eq i).trans (h1.rec_eq i)⟩

theorem offsetStep_frame {r r1 : List PeriodRecord} {t : Nat} {lt : Int}
    (h : offsetStep r t lt = .ok r1) : SameButRelease r r1 := by
  unfold offsetStep at h
  simp only [] at h
  split at h
  · split at h
    · split at h
      · rename_i rec hrec
        simp only [Except.ok.injEq] at h
        subst h
        obtain ⟨hlt, -⟩ := List.getElem?_eq_some.mp hrec
        refine ⟨List.length_set .., fun i => ?_⟩
        rw [List.getElem?_set]
        split
        · rename_i hij
          subst hij
          simp [hrec, hlt, eraseRelease]
        · rfl
      · exact absurd h (by simp)
    · simp only [Except.ok.injEq] at h
      subst h
      exact SameButRelease.refl r
  · simp only [Except.ok.injEq] at h
    subst h
    exact SameButRelease.refl r

theorem offsetAux_frame {lt : Int} :
    ∀ (ts : List Nat) (r r' : List PeriodRecord),
    offsetAux lt ts r = .ok r' → SameButRelease r r'
  | [], r, r', h => by
    simp only [offsetAux, Except.ok.injEq] at h
    subst h
    exact SameButRelease.refl r
  | t :: ts, r, r', h => by
    unfold offsetAux at h
    split at h
    · exact absurd h (by simp)
    · rename_i r1 h1
      exact (offsetStep_frame h1).trans (offsetAux_frame ts r1 r' h)

theorem offsetPass_frame {row row' : List PeriodRecord} {lt : Int}
    (h : offsetPass row lt = .ok row') : SameButRelease row row' :=
  offsetAux_frame _ _ _ h

theorem SameButRelease.receipt_eq {r r' : List PeriodRecord}
    (h : SameButRelease r r') (i : Nat) :
    (r'[i]?).map PeriodRecord.plannedOrderReceipt =
      (r[i]?).map PeriodRecord.plannedOrderReceipt := by
  have h2 := h.rec_eq i
  cases h1 : r'[i]? <;> cases h3 : r[i]? <;>
    simp_all [eraseRelease, PeriodRecord.mk.injEq]

theorem SameButRelease.projAvail_eq {r r' : List PeriodRecord}
    (h : SameButRelease r r') (i : Nat) :
    (r'[i]?).map PeriodRecord.projAvail = (r[i]?).map PeriodRecord.projAvail := by
  have h2 := h.rec_eq i
  cases h1 : r'[i]? <;> cases h3 : r[i]? <;>
    simp_all [eraseRelease, PeriodRecord.mk.injEq]

end MRP
namespace MRP

/-- The `plannedOrderRelease` stored at index `j`, 0 when out of range. -/
def relAtD (r : List PeriodRecord) (j : Nat) : Int :=
  ((r[j]?).map PeriodRecord.plannedOrderRelease).getD 0

/-- Contribution of the offsetting step for period index `t` to the release at
index `j`, as a function of the planned order receipt found at `t`. -/
def indC (lt : Int) (ro : Option Int) (j t : Nat) : Int :=
  match ro with
  | some q => if 0 < q ∧ (t : Int) - lt = (j : Int) then q else 0
  | none => 0

theorem indC_some (lt : Int) (q : Int) (j t : Nat) :
    indC lt (some q) j t = if 0 < q ∧ (t : Int) - lt = (j : Int) then q else 0 :=
  rfl

theorem indC_none (lt : Int) (j t : Nat) : indC lt none j t = 0 :=
  rfl

/-- Total receipt quantity that the offsetting pass moves into the release at
index `j`: the receipt of index `j + lt` when positive, otherwise 0. -/
def contribAt (row : List PeriodRecord) (lt : Int) (j : Nat) : Int :=
  match row[j + lt.toNat]? with
  | some r => if 0 < r.plannedOrderReceipt then r.plannedOrderReceipt else 0
  | none => 0

theorem offsetStep_relAtD {r r1 : List PeriodRecord} {t : Nat} {lt : Int}
    (h : offsetStep r t lt = .ok r1) (j : Nat) :
    relAtD r1 j =
      relAtD r j + indC lt ((r[t]?).map PeriodRecord.plannedOrderReceipt) j t := by
  unfold offsetStep at h
  simp only [] at h
  split at h
  case isTrue hpos =>
    split at h
    case isTrue hnn =>
      split at h
      case h_1 x rec hrec =>
        simp only [Except.ok.injEq] at h
        subst h
        obtain ⟨hlen, -⟩ := List.getElem?_eq_some.mp hrec
        obtain ⟨rt, hrt, hrtpos⟩ :
            ∃ rt, r[t]? = some rt ∧ 0 < rt.plannedOrderReceipt := by
          cases h3 : r[t]? with
          | none => rw [h3] at hpos; simp at hpos
          | some rt =>
            rw [h3] at hpos
            simp only [Option.map_some', Option.getD_some] at hpos
            exact ⟨rt, rfl, hpos⟩
        rw [hrt]
        unfold relAtD
        rw [List.getElem?_set]
        by_cases hij : ((t : Int) - lt).toNat = j
        · rw [if_pos hij]
          subst hij
          rw [if_pos hlen, hrec]
          simp only [Option.map_some', Option.getD_some, indC_some]
          rw [if_pos ⟨hrtpos, by omega⟩]
        · rw [if_neg hij]
          simp only [Option.map_some', indC_some]
          rw [if_neg]
          · omega
          · rintro ⟨-, habs⟩
            omega
      case h_2 x hrec => exact absurd h (by simp)
    case isFalse hnn =>
      simp only [Except.ok.injEq] at h
      subst h
      cases h3 : r[t]? with
      | none => simp [h3, indC_none]
      | some rt =>
        rw [h3] at hpos
        simp only [Option.map_some', Option.getD_some] at hpos
        simp only [h3, Option.map_some', indC_some]
        rw [if_neg]
        · omega
        · rintro ⟨-, habs⟩
          omega
  case isFalse hpos =>
    simp only [Except.ok.injEq] at h
    subst h
    cases h3 : r[t]? with
    | none => simp [h3, indC_none]
    | some rt =>
      rw [h3] at hpos
      simp only [Option.map_some', Option.getD_some] at hpos
      simp only [h3, Option.map_some', indC_some]
      rw [if_neg]
      · omega
      · rintro ⟨hq, -⟩
        omega

theorem offsetAux_relAtD {lt : Int} :
    ∀ (ts : List Nat) (r r' : List PeriodRecord),
    offsetAux lt ts r = .ok r' → ∀ j : Nat,
    relAtD r' j = relAtD r j +
      ((ts.map (fun t =>
        indC lt ((r[t]?).map PeriodRecord.plannedOrderReceipt) j t)).sum)
  | [], r, r', h, j => by
    simp only [offsetAux, Except.ok.injEq] at h
    subst h
    simp
  | t :: ts, r, r', h, j => by
    unfold offsetAux at h
    split at h
    · exact absurd h (by simp)
    · rename_i r1 h1
      have hstep := offsetStep_relAtD h1 j
      have hrec := (offsetStep_frame h1).receipt_eq
      have ih := offsetAux_relAtD ts r1 r' h j
      simp only [hrec] at ih
      rw [List.map_cons, List.sum_cons]
      omega

theorem offsetPass_relAtD {row row' : List PeriodRecord} {lt : Int}
    (hlt : 0 ≤ lt) (h : offsetPass row lt = .ok row') (j : Nat) :
    relAtD row' j = relAtD row j + contribAt row lt j := by
  have main := offsetAux_relAtD (List.range row.length) row row' h j
  rw [main]
  congr 1
  have hzero : ∀ t : Nat, t ≠ j + lt.toNat →
      indC lt ((row[t]?).map PeriodRecord.plannedOrderReceipt) j t = 0 := by
    intro t ht
    cases h3 : row[t]? with
    | none => simp [indC]
    | some rt =>
      simp only [Option.map_some', indC_some]
      rw [if_neg]
      rintro ⟨-, habs⟩
      omega
  have hgen : ∀ (f : Nat → Int) (c : Nat), (∀ t, t ≠ c → f t = 0) →
      ∀ L : Nat, ((List.range L).map f).sum = if c < L then f c else 0 := by
    intro f c hf L
    induction L with
    | zero => simp
    | succ n ih =>
      rw [List.range_succ, List.map_append, List.sum_append, ih]
      simp only [List.map_cons, List.map_nil, List.sum_cons, List.sum_nil, add_zero]
      by_cases hcn : c = n
      · subst hcn
        rw [if_neg (Nat.lt_irrefl c), if_pos (Nat.lt_succ_self c)]
        omega
      · rw [hf n (fun hh => hcn hh.symm)]
        by_cases hlt2 : c < n
        · rw [if_pos hlt2, if_pos (by omega)]
          omega
        · rw [if_neg hlt2, if_neg (by omega)]
          omega
  rw [hgen _ _ hzero row.length]
  by_cases hin : j + lt.toNat < row.length
  · rw [if_pos hin]
    obtain ⟨rc, hrc⟩ : ∃ rc, row[j + lt.toNat]? = some rc :=
      ⟨row[j + lt.toNat], List.getElem?_eq_getElem hin⟩
    simp only [Option.map_some', indC_some, contribAt, hrc]
    by_cases hpos : 0 < rc.plannedOrderReceipt
    · rw [if_pos ⟨hpos, by omega⟩, if_pos hpos]
    · rw [if_neg (by intro hc; exact hpos hc.1), if_neg hpos]
  · rw [if_neg hin]
    have hnone : row[j + lt.toNat]? = none := List.getElem?_eq_none (by omega)
    simp [contribAt, hnone]

end MRP
namespace MRP

theorem items_map_spec {items : List Item} {item_id : String} {item : Item}
    (h : items_map items item_id = some item) :
    item ∈ items ∧ item.id = item_id := by
  unfold items_map at h
  have hmem := List.mem_of_mem_getLast? h
  have hf := List.mem_filter.mp hmem
  exact ⟨hf.1, by simpa using hf.2⟩

theorem computePeriod_ss {bom : List BomLine} {mps : Mps} {results : Results}
    {item : Item} {item_id : String} {t : Nat} {rec : PeriodRecord}
    (hls : item.ls ≤ 1)
    (h : computePeriod bom mps results item item_id t = .ok rec) :
    item.ss ≤ rec.projAvail := by
  unfold computePeriod at h
  simp only [] at h
  split at h
  · exact absurd h (by simp)
  · rename_i prev hprev
    split at h
    case isTrue hlow =>
      simp only [Except.ok.injEq] at h
      subst h
      simp only [if_pos hls]
      omega
    case isFalse hlow =>
      simp only [Except.ok.injEq] at h
      subst h
      simp only []
      omega

theorem forwardAux_ss {bom : List BomLine} {mps : Mps} {results : Results}
    {item : Item} {item_id : String} (hls : item.ls ≤ 1) :
    ∀ (n t : Nat) (acc row : List PeriodRecord),
    forwardAux bom mps results item item_id t n acc = .ok row →
    (∀ r ∈ acc, item.ss ≤ r.projAvail) → ∀ r ∈ row, item.ss ≤ r.projAvail
  | 0, t, acc, row, h, hacc => by
    simp only [forwardAux, Except.ok.injEq] at h
    subst h
    exact hacc
  | n + 1, t, acc, row, h, hacc => by
    unfold forwardAux at h
    split at h
    · exact absurd h (by simp)
    · rename_i pd hpd
      refine forwardAux_ss hls n (t + 1) (acc ++ [pd]) row h ?_
      intro r hr
      rcases List.mem_append.mp hr with h1 | h1
      · exact hacc r h1
      · rw [List.mem_singleton] at h1
        subst h1
        exact computePeriod_ss hls hpd

theorem SameButRelease.mem_projAvail {r r' : List PeriodRecord} {P : Int → Prop}
    (h : SameButRelease r r') (hall : ∀ x ∈ r, P x.projAvail) :
    ∀ x ∈ r', P x.projAvail := by
  intro x hx
  obtain ⟨i, hi⟩ := List.mem_iff_getElem?.mp hx
  have heq := h.projAvail_eq i
  rw [hi] at heq
  cases h2 : r[i]? with
  | none =>
    rw [h2] at heq
    simp at heq
  | some y =>
    rw [h2] at heq
    simp only [Option.map_some', Option.some.injEq] at heq
    rw [heq]
    exact hall y (List.getElem?_mem h2)

theorem planItems_ss {d : MRPInput} (hlsAll : ∀ i ∈ d.items, i.ls ≤ 1) :
    ∀ (nodes : List String) (results tbl : Results),
    planItems d nodes results = .ok tbl →
    (∀ p ∈ results, ∀ itm, items_map d.items p.1 = some itm →
      ∀ r ∈ p.2, itm.ss ≤ r.projAvail) →
    ∀ p ∈ tbl, ∀ itm, items_map d.items p.1 = some itm →
      ∀ r ∈ p.2, itm.ss ≤ r.projAvail
  | [], results, tbl, h, hinv => by
    simp only [planItems, Except.ok.injEq] at h
    subst h
    exact hinv
  | item_id :: rest, results, tbl, h, hinv => by
    unfold planItems at h
    split at h
    case h_1 x hnone => exact planItems_ss hlsAll rest results tbl h hinv
    case h_2 x item hitem =>
      split at h
      · exact absurd h (by simp)
      · rename_i row hrow
        split at h
        · exact absurd h (by simp)
        · rename_i row2 hrow2
          refine planItems_ss hlsAll rest _ tbl h ?_
          intro p hp itm hitm r hr
          rcases List.mem_append.mp hp with h1 | h1
          · exact hinv p h1 itm hitm r hr
          · rw [List.mem_singleton] at h1
            subst h1
            simp only [] at hitm
            rw [hitem] at hitm
            have hii : item = itm := by
              injection hitm
            subst hii
            have hils : item.ls ≤ 1 := hlsAll item (items_map_spec hitem).1
            have hfwd : ∀ x ∈ row, item.ss ≤ x.projAvail :=
              forwardAux_ss hils d.horizon 1 [] row hrow
                (by intro x hx; cases hx)
            exact (offsetPass_frame hrow2).mem_projAvail hfwd r hr

end MRP
namespace MRP

/-- The edge relation of the BOM digraph. -/
def edgeRel (edges : List (String × String)) (a b : String) : Prop :=
  (a, b) ∈ edges

/-- A directed cycle: nodes `x, xs₀, …, xsₖ` with an edge from each one to the
next and an edge from the last back to `x`. -/
def hasCycle (edges : List (String × String)) : Prop :=
  ∃ x xs, List.Chain (edgeRel edges) x (xs ++ [x])

theorem chain_pred {edges : List (String × String)} :
    ∀ (l : List String) (x y : String),
    List.Chain (edgeRel edges) x l → y ∈ l → ∃ z ∈ x :: l, edgeRel edges z y
  | [], _, y, _, hy => absurd hy (List.not_mem_nil y)
  | b :: l, x, y, hch, hy => by
    cases hch with
    | cons hxb hbl =>
      rcases List.mem_cons.mp hy with rfl | hyl
      · exact ⟨x, List.mem_cons_self .., hxb⟩
      · obtain ⟨z, hz, hrel⟩ := chain_pred l b y hbl hyl
        exact ⟨z, List.mem_cons_of_mem x hz, hrel⟩

theorem cycle_in_neighbor {edges : List (String × String)} {x : String}
    {xs : List String} (hch : List.Chain (edgeRel edges) x (xs ++ [x])) :
    ∀ y ∈ x :: xs, ∃ z ∈ x :: xs, edgeRel edges z y := by
  intro y hy
  have hy2 : y ∈ xs ++ [x] := by
    rcases List.mem_cons.mp hy with rfl | h
    · exact List.mem_append.mpr (Or.inr (List.mem_singleton.mpr rfl))
    · exact List.mem_append.mpr (Or.inl h)
  obtain ⟨z, hz, hrel⟩ := chain_pred _ _ _ hch hy2
  refine ⟨z, ?_, hrel⟩
  rcases List.mem_cons.mp hz with rfl | h
  · exact List.mem_cons_self ..
  · rcases List.mem_append.mp h with h1 | h1
    · exact List.mem_cons_of_mem _ h1
    · rw [List.mem_singleton] at h1
      subst h1
      exact List.mem_cons_self ..

theorem kahnAux_stuck {edges : List (String × String)} {S : List String}
    (hS : S ≠ []) (hin : ∀ y ∈ S, ∃ z ∈ S, edgeRel edges z y) :
    ∀ (fuel : Nat) (remaining : List String), (∀ y ∈ S, y ∈ remaining) →
    kahnAux edges fuel remaining = none
  | 0, remaining, hsub => by
    obtain ⟨y, hy⟩ := List.exists_mem_of_ne_nil S hS
    cases remaining with
    | nil => exact absurd (hsub y hy) (List.not_mem_nil y)
    | cons a as => simp [kahnAux]
  | fuel + 1, remaining, hsub => by
    obtain ⟨y, hy⟩ := List.exists_mem_of_ne_nil S hS
    cases remaining with
    | nil => exact absurd (hsub y hy) (List.not_mem_nil y)
    | cons a as =>
      unfold kahnAux
      rw [if_neg (by simp)]
      cases hp : pickNoIncoming (a :: as) edges with
      | none => rfl
      | some n =>
        have hnS : n ∉ S := by
          intro hnS
          obtain ⟨z, hzS, hrel⟩ := hin n hnS
          have hfind := List.find?_some hp
          have hinc : hasIncoming edges (a :: as) n = true := by
            unfold hasIncoming
            refine List.any_eq_true.mpr ⟨(z, n), hrel, ?_⟩
            simp only [Bool.and_eq_true, beq_self_eq_true, true_and]
            exact List.elem_eq_true_of_mem (hsub z hzS)
          rw [hinc] at hfind
          simp at hfind
        have hsub2 : ∀ y' ∈ S, y' ∈ (a :: as).erase n := by
          intro y' hy'
          have hne : y' ≠ n := by
            intro hh
            subst hh
            exact hnS hy'
          exact (List.mem_erase_of_ne hne).mpr (hsub y' hy')
        show Option.map (fun l => n :: l) (kahnAux edges fuel ((a :: as).erase n)) = none
        rw [kahnAux_stuck hS hin fuel ((a :: as).erase n) hsub2]
        rfl

theorem mem_dedupKeepFirst :
    ∀ (l seen : List String) (x : String),
    x ∈ dedupKeepFirst seen l ↔ (x ∈ l ∧ x ∉ seen)
  | [], seen, x => by simp [dedupKeepFirst]
  | a :: l, seen, x => by
    unfold dedupKeepFirst
    by_cases hc : seen.contains a
    · rw [if_pos hc]
      rw [mem_dedupKeepFirst l seen x]
      have ha : a ∈ seen := List.mem_of_elem_eq_true hc
      constructor
      · rintro ⟨h1, h2⟩
        exact ⟨List.mem_cons_of_mem a h1, h2⟩
      · rintro ⟨h1, h2⟩
        rcases List.mem_cons.mp h1 with rfl | h1
        · exact absurd ha h2
        · exact ⟨h1, h2⟩
    · rw [if_neg hc]
      have ha : a ∉ seen := fun hmem => hc (List.elem_eq_true_of_mem hmem)
      constructor
      · intro h1
        rcases List.mem_cons.mp h1 with rfl | h1
        · exact ⟨List.mem_cons_self .., ha⟩
        · obtain ⟨h2, h3⟩ := (mem_dedupKeepFirst l (a :: seen) x).mp h1
          exact ⟨List.mem_cons_of_mem a h2,
            fun hmem => h3 (List.mem_cons_of_mem a hmem)⟩
      · rintro ⟨h1, h2⟩
        rcases List.mem_cons.mp h1 with rfl | h1
        · exact List.mem_cons_self ..
        · by_cases hxa : x = a
          · subst hxa
            exact List.mem_cons_self ..
          · refine List.mem_cons_of_mem a ?_
            refine (mem_dedupKeepFirst l (a :: seen) x).mpr ⟨h1, ?_⟩
            intro hmem
            rcases List.mem_cons.mp hmem with h3 | h3
            · exact hxa h3
            · exact h2 h3

theorem mem_graphNodes_of_child {d : MRPInput} {z y : String}
    (h : edgeRel (edgePairs d.bom) z y) : y ∈ graphNodes d := by
  unfold edgeRel edgePairs at h
  obtain ⟨e, he, heq⟩ := List.mem_map.mp h
  have hy : y = e.child := by
    have := congrArg Prod.snd heq
    simpa using this.symm
  subst hy
  refine (mem_dedupKeepFirst _ _ _).mpr ⟨?_, List.not_mem_nil _⟩
  refine List.mem_append.mpr (Or.inr ?_)
  exact List.mem_map_of_mem BomLine.child he

end MRP
namespace MRP

theorem lookup_eq_none_of_forall {β : Type} :
    ∀ (l : List (String × β)) (key : String), (∀ p ∈ l, p.1 ≠ key) →
    l.lookup key = none
  | [], _, _ => rfl
  | (x, y) :: l, key, h => by
    have h1 : (key == x) = false := by
      have hx := h (x, y) (List.mem_cons_self ..)
      simp only [ne_eq] at hx
      exact beq_eq_false_iff_ne.mpr (fun hh => hx hh.symm)
    rw [show List.lookup key ((x, y) :: l) = List.lookup key l by
      simp [List.lookup, h1]]
    exact lookup_eq_none_of_forall l key
      (fun q hq => h q (List.mem_cons_of_mem (x, y) hq))

theorem nodup_dedupKeepFirst :
    ∀ (l seen : List String), (dedupKeepFirst seen l).Nodup
  | [], _ => List.nodup_nil
  | a :: l, seen => by
    unfold dedupKeepFirst
    by_cases hc : seen.contains a
    · rw [if_pos hc]
      exact nodup_dedupKeepFirst l seen
    · rw [if_neg hc]
      refine List.nodup_cons.mpr ⟨?_, nodup_dedupKeepFirst l (a :: seen)⟩
      intro hmem
      exact ((mem_dedupKeepFirst l (a :: seen) a).mp hmem).2
        (List.mem_cons_self ..)

theorem graphNodes_nodup (d : MRPInput) : (graphNodes d).Nodup :=
  nodup_dedupKeepFirst _ _

theorem kahnAux_nodup_sub {edges : List (String × String)} :
    ∀ (fuel : Nat) (remaining order : List String), remaining.Nodup →
    kahnAux edges fuel remaining = some order →
    order.Nodup ∧ ∀ y ∈ order, y ∈ remaining
  | 0, remaining, order, hnd, h => by
    unfold kahnAux at h
    split at h
    · simp only [Option.some.injEq] at h
      subst h
      exact ⟨List.nodup_nil, by intro y hy; cases hy⟩
    · exact absurd h (by simp)
  | fuel + 1, remaining, order, hnd, h => by
    unfold kahnAux at h
    split at h
    · simp only [Option.some.injEq] at h
      subst h
      exact ⟨List.nodup_nil, by intro y hy; cases hy⟩
    · split at h
      · exact absurd h (by simp)
      · rename_i n hp
        obtain ⟨l, hl, horder⟩ := Option.map_eq_some'.mp h
        subst horder
        obtain ⟨hlnd, hlsub⟩ := kahnAux_nodup_sub fuel (remaining.erase n) l
          (List.Nodup.erase n hnd) hl
        have hnrem : n ∈ remaining := List.mem_of_find?_eq_some hp
        refine ⟨List.nodup_cons.mpr ⟨?_, hlnd⟩, ?_⟩
        · intro hmem
          exact (List.Nodup.not_mem_erase hnd) (hlsub n hmem)
        · intro y hy
          rcases List.mem_cons.mp hy with rfl | hy
          · exact hnrem
          · exact List.mem_of_mem_erase (hlsub y hy)

theorem SameButRelease.mem_receipt_projAvail {r r' : List PeriodRecord}
    {c : Int} (h : SameButRelease r r')
    (hall : ∀ x ∈ r, x.plannedOrderReceipt = 0 ∧ x.projAvail = c) :
    ∀ x ∈ r', x.plannedOrderReceipt = 0 ∧ x.projAvail = c := by
  intro x hx
  obtain ⟨i, hi⟩ := List.mem_iff_getElem?.mp hx
  have h1 := h.receipt_eq i
  have h2 := h.projAvail_eq i
  rw [hi] at h1 h2
  cases h3 : r[i]? with
  | none =>
    rw [h3] at h1
    simp at h1
  | some yy =>
    rw [h3] at h1 h2
    simp only [Option.map_some', Option.some.injEq] at h1 h2
    obtain ⟨hy1, hy2⟩ := hall yy (List.getElem?_mem h3)
    rw [h1, h2]
    exact ⟨hy1, hy2⟩

theorem predecessorsOf_eq_nil {bom : List BomLine} {item_id : String}
    (h : ∀ e ∈ bom, e.child ≠ item_id) : predecessorsOf bom item_id = [] := by
  unfold predecessorsOf
  have hf : bom.filter (fun e => e.child == item_id) = [] :=
    List.filter_eq_nil_iff.mpr (fun e he => by simpa using h e he)
  rw [hf]
  rfl

theorem computePeriod_zero_ok {bom : List BomLine} {mps : Mps}
    {results : Results} {item : Item} {item_id : String} {t : Nat}
    {rec : PeriodRecord}
    (hmps : mpsVal mps item_id t = 0)
    (hnochild : ∀ e ∈ bom, e.child ≠ item_id)
    (hlook : results.lookup item_id = none)
    (hoh : item.ss ≤ item.oh)
    (h : computePeriod bom mps results item item_id t = .ok rec) :
    rec.plannedOrderReceipt = 0 ∧ rec.projAvail = item.oh := by
  have hdep : dependentDemand bom results item_id t = 0 := by
    unfold dependentDemand
    rw [predecessorsOf_eq_nil hnochild]
    rfl
  unfold computePeriod at h
  simp only [] at h
  rw [hmps, hdep] at h
  by_cases ht : t = 1
  · subst ht
    unfold priorBalance at h
    rw [if_pos rfl] at h
    simp only [] at h
    split at h
    · rename_i hlow
      exfalso
      omega
    · rename_i hlow
      simp only [Except.ok.injEq] at h
      subst h
      constructor
      · rfl
      · simp only []
        omega
  · exfalso
    unfold priorBalance at h
    rw [if_neg ht, hlook] at h
    exact absurd h (by simp)

theorem forwardAux_zero {bom : List BomLine} {mps : Mps} {results : Results}
    {item : Item} {item_id : String}
    (hmps : ∀ t : Nat, mpsVal mps item_id t = 0)
    (hnochild : ∀ e ∈ bom, e.child ≠ item_id)
    (hlook : results.lookup item_id = none)
    (hoh : item.ss ≤ item.oh) :
    ∀ (n t : Nat) (acc row : List PeriodRecord),
    forwardAux bom mps results item item_id t n acc = .ok row →
    (∀ r ∈ acc, r.plannedOrderReceipt = 0 ∧ r.projAvail = item.oh) →
    ∀ r ∈ row, r.plannedOrderReceipt = 0 ∧ r.projAvail = item.oh
  | 0, t, acc, row, h, hacc => by
    simp only [forwardAux, Except.ok.injEq] at h
    subst h
    exact hacc
  | n + 1, t, acc, row, h, hacc => by
    unfold forwardAux at h
    split at h
    · exact absurd h (by simp)
    · rename_i pd hpd
      refine forwardAux_zero hmps hnochild hlook hoh n (t + 1)
        (acc ++ [pd]) row h ?_
      intro r hr
      rcases List.mem_append.mp hr with h1 | h1
      · exact hacc r h1
      · rw [List.mem_singleton] at h1
        subst h1
        exact computePeriod_zero_ok (hmps t) hnochild hlook hoh hpd

end MRP
namespace MRP

theorem planItems_keys {d : MRPInput} :
    ∀ (nodes : List String) (results tbl : Results),
    planItems d nodes results = .ok tbl →
    (∀ p ∈ results, ∃ itm ∈ d.items, itm.id = p.1) →
    ∀ p ∈ tbl, ∃ itm ∈ d.items, itm.id = p.1
  | [], results, tbl, h, hinv => by
    simp only [planItems, Except.ok.injEq] at h
    subst h
    exact hinv
  | item_id :: rest, results, tbl, h, hinv => by
    unfold planItems at h
    split at h
    case h_1 x hnone => exact planItems_keys rest results tbl h hinv
    case h_2 x item hitem =>
      split at h
      · exact absurd h (by simp)
      · rename_i row hrow
        split at h
        · exact absurd h (by simp)
        · rename_i row2 hrow2
          refine planItems_keys rest _ tbl h ?_
          intro p hp
          rcases List.mem_append.mp hp with h1 | h1
          · exact hinv p h1
          · rw [List.mem_singleton] at h1
            subst h1
            obtain ⟨hmem, hid⟩ := items_map_spec hitem
            exact ⟨item, hmem, hid⟩

theorem planItems_zero {d : MRPInput} {target : String} {itm : Item}
    (hitm : items_map d.items target = some itm)
    (hmps : ∀ t : Nat, mpsVal d.mps target t = 0)
    (hnochild : ∀ e ∈ d.bom, e.child ≠ target)
    (hoh : itm.ss ≤ itm.oh) :
    ∀ (nodes : List String) (results tbl : Results),
    planItems d nodes results = .ok tbl → nodes.Nodup →
    (∀ p ∈ results, p.1 ∉ nodes) →
    (∀ p ∈ results, p.1 = target →
      ∀ r ∈ p.2, r.plannedOrderReceipt = 0 ∧ r.projAvail = itm.oh) →
    ∀ p ∈ tbl, p.1 = target →
      ∀ r ∈ p.2, r.plannedOrderReceipt = 0 ∧ r.projAvail = itm.oh
  | [], results, tbl, h, _, _, hinv => by
    simp only [planItems, Except.ok.injEq] at h
    subst h
    exact hinv
  | item_id :: rest, results, tbl, h, hnd, hkeys, hinv => by
    unfold planItems at h
    split at h
    case h_1 x hnone =>
      exact planItems_zero hitm hmps hnochild hoh rest results tbl h
        (List.Nodup.of_cons hnd)
        (fun p hp hmem => hkeys p hp (List.mem_cons_of_mem _ hmem))
        hinv
    case h_2 x item hitem =>
      split at h
      · exact absurd h (by simp)
      · rename_i row hrow
        split at h
        · exact absurd h (by simp)
        · rename_i row2 hrow2
          refine planItems_zero hitm hmps hnochild hoh rest _ tbl h
            (List.Nodup.of_cons hnd) ?_ ?_
          · intro p hp
            rcases List.mem_append.mp hp with h1 | h1
            · exact fun hmem => hkeys p h1 (List.mem_cons_of_mem _ hmem)
            · rw [List.mem_singleton] at h1
              subst h1
              exact List.Nodup.not_mem hnd
          · intro p hp hptarget r hr
            rcases List.mem_append.mp hp with h1 | h1
            · exact hinv p h1 hptarget r hr
            · rw [List.mem_singleton] at h1
              subst h1
              simp only [] at hptarget
              subst hptarget
              rw [hitm] at hitem
              have hii : itm = item := by injection hitem
              subst hii
              have hlook : results.lookup item_id = none :=
                lookup_eq_none_of_forall results item_id
                  (fun q hq hh => hkeys q hq
                    (by rw [hh]; exact List.mem_cons_self ..))
              have hrowP := forwardAux_zero hmps hnochild hlook hoh
                d.horizon 1 [] row hrow (by intro rr hrr; cases hrr)
              exact (offsetPass_frame hrow2).mem_receipt_projAvail hrowP r hr

end MRP
namespace MRP

/-- Fixed single-item input with one MPS entry of demand `v` at period 1,
used to show that negative demand is accepted. -/
def c7input (v : Int) : MRPInput :=
  { items := [{ id := ("A"), name := ("A"), lt := 0, ss := 0, oh := 0, ls := 1,
                type := ("Finished") }],
    bom := [], mps := [(("A"), [(1, v)])], horizon := 1 }

theorem run_mrp_negative_demand (v : Int) (hv : v < 0) :
    run_mrp (c7input v) = .ok [(("A"),
      [{ period := 1, grossReq := v, schedReceipt := 0, projAvail := -v,
         netReq := 0, plannedOrderReceipt := 0, plannedOrderRelease := 0 }])] := by
  have hif : ¬ (-v < 0) := by omega
  simp [run_mrp, c7input, kahnSort, kahnAux, graphNodes, dedupKeepFirst,
    edgePairs, pickNoIncoming, hasIncoming, planItems, items_map, forwardPass,
    forwardAux, computePeriod, mpsVal, dependentDemand, predecessorsOf,
    priorBalance, offsetPass, offsetAux, offsetStep, List.lookup, hif]

end MRP
namespace MRP

/-- Input of the spec example for claim C1: parent `P` with demand 30 at
period 2 feeding child `C` with quantity-per-unit 2, horizon 2. -/
def c1ex : MRPInput :=
  { items := [{ id := ("P"), name := ("P"), lt := 0, ss := 0, oh := 0, ls := 1,
                type := ("Finished") },
              { id := ("C"), name := ("C"), lt := 0, ss := 0, oh := 0, ls := 1,
                type := ("Component") }],
    bom := [{ parent := ("P"), child := ("C"), qty := 2 }],
    mps := [(("P"), [(2, 30)])], horizon := 2 }

/-- Claim C1 (code bug).  The claim describes the gross requirement recorded
for every period `1 ≤ t ≤ horizon`, but for any horizon of at least 2 the
code records nothing at all: at period 2 of the first planned item, line 133
of src/main.py reads `results[item_id]` before that key is stored (line 180
stores it only after the loop), so the run dies with `KeyError` and no table
with the claimed gross requirements is ever produced.  On the spec's own
parent/child example the whole run returns the `KeyError` escape for `P`. -/
theorem run_mrp_crashes_before_dependent_demand :
    run_mrp c1ex = .error (("KeyError: ") ++ ("P")) := by
  rfl

/-- Input for claim C2: one item with demand in both periods of a 2-period
horizon; netting should use period 1's ending balance at period 2. -/
def c2ex : MRPInput :=
  { items := [{ id := ("A"), name := ("A"), lt := 0, ss := 0, oh := 0, ls := 1,
                type := ("Finished") }],
    bom := [], mps := [(("A"), [(1, 10), (2, 5)])], horizon := 2 }

/-- Claim C2 (code bug).  The claimed prior balance for `t ≥ 2` is the
previous period's projected available balance, and line 133 of src/main.py
indeed tries to read it — but from `results[item_id]`, which is only assigned
after the item's loop finishes, never from the row under construction.  So at
period 2 of any item the code raises `KeyError` instead of computing the
provisional balance, and the claimed netting columns are never recorded. -/
theorem run_mrp_crashes_on_prior_balance :
    run_mrp c2ex = .error (("KeyError: ") ++ ("A")) := by
  rfl

/-- Input for claim C3: lead time 1 with a planned receipt at period 1, so
the release would fall at period 0, outside the horizon. -/
def c3ex : MRPInput :=
  { items := [{ id := ("A"), name := ("A"), lt := 1, ss := 0, oh := 0, ls := 1,
                type := ("Finished") }],
    bom := [], mps := [(("A"), [(1, 10)])], horizon := 1 }

/-- The single period record produced by `run_mrp c3ex`. -/
def c3rec : PeriodRecord :=
  { period := 1, grossReq := 10, schedReceipt := 0, projAvail := 0,
    netReq := 10, plannedOrderReceipt := 10, plannedOrderRelease := 0 }

/-- Claim C3 counterexample.  On `c3ex` the receipt of 10 at period 1 has its
release period `1 - lt = 0 < 1`; the quantity is indeed absent from every
release field, but the run's entire output is exactly this table of seven
numeric columns — it succeeds and carries no `ReleaseOutsideHorizon` flag or
annotation of any kind (the code has no flagging at all, it silently drops
the quantity at src/main.py line 177), refuting the flagging requirement. -/
theorem run_mrp_no_release_flag_counterexample :
    run_mrp c3ex = .ok [(("A"), [c3rec])] ∧
    0 < c3rec.plannedOrderReceipt ∧
    (c3rec.period : Int) - 1 < 1 ∧
    c3rec.plannedOrderRelease = 0 :=
  ⟨by rfl, by decide, by decide, by rfl⟩

/-- Claim C3 as amended (the offsetting pass, src/main.py lines 172-178).
After an item's forward pass, each period `t` with a positive planned order
receipt has that quantity added to the planned order release of period
`t - lead time`; a receipt whose release period falls before period 1 is
silently dropped — it appears in no release field of the visible table and no
flag is raised, the output being nothing but the period table.  Concretely,
every release field of the offset row equals its prior value plus the receipt
of the period `lead time` later (0 when that period is absent, i.e. dropped
quantities reach no visible release). -/
theorem offsetPass_release_spec (row row' : List PeriodRecord) (lt : Int)
    (hlt : 0 ≤ lt) (h : offsetPass row lt = .ok row') :
    ∀ j : Nat, ∀ rec : PeriodRecord, row'[j]? = some rec →
    rec.plannedOrderRelease = relAtD row j + contribAt row lt j := by
  intro j rec hj
  have hmain := offsetPass_relAtD hlt h j
  unfold relAtD at hmain
  rw [hj] at hmain
  simpa using hmain

/-- Row used to witness the offsetting specification: receipts 10 and 7 at
periods 1 and 2, lead time 1. -/
def w3row : List PeriodRecord :=
  [{ period := 1, grossReq := 10, schedReceipt := 0, projAvail := 0,
     netReq := 10, plannedOrderReceipt := 10, plannedOrderRelease := 0 },
   { period := 2, grossReq := 7, schedReceipt := 0, projAvail := 0,
     netReq := 7, plannedOrderReceipt := 7, plannedOrderRelease := 0 }]

/-- Result of offsetting `w3row` with lead time 1: period 2's receipt lands
in period 1's release, period 1's receipt is dropped (release period 0). -/
def w3row' : List PeriodRecord :=
  [{ period := 1, grossReq := 10, schedReceipt := 0, projAvail := 0,
     netReq := 10, plannedOrderReceipt := 10, plannedOrderRelease := 7 },
   { period := 2, grossReq := 7, schedReceipt := 0, projAvail := 0,
     netReq := 7, plannedOrderReceipt := 7, plannedOrderRelease := 0 }]

/-- First record of `w3row'`. -/
def w3rec0 : PeriodRecord :=
  { period := 1, grossReq := 10, schedReceipt := 0, projAvail := 0,
    netReq := 10, plannedOrderReceipt := 10, plannedOrderRelease := 7 }

/-- Witness for the offsetting specification at a concrete row. -/
theorem offsetPass_release_spec_witness :
    w3rec0.plannedOrderRelease = relAtD w3row 0 + contribAt w3row 1 0 :=
  offsetPass_release_spec w3row w3row' 1 (by decide) (by rfl) 0 w3rec0 (by rfl)

/-- Claim C4.  Whenever the BOM edges contain a directed cycle, `run_mrp`
fails with the cyclic-BOM error raised before any item is planned, and no
planning table is returned: every node on the cycle always keeps an incoming
edge from another cycle node, so Kahn's elimination can never remove any of
them and the acyclicity check fails. -/
theorem run_mrp_cyclic (d : MRPInput) (h : hasCycle (edgePairs d.bom)) :
    run_mrp d = .error cyclicBOMmsg := by
  obtain ⟨x, xs, hch⟩ := h
  have hin := cycle_in_neighbor hch
  have hS : (x :: xs) ≠ [] := List.cons_ne_nil x xs
  have hsub : ∀ y ∈ x :: xs, y ∈ graphNodes d := by
    intro y hy
    obtain ⟨z, hz, hrel⟩ := hin y hy
    exact mem_graphNodes_of_child hrel
  unfold run_mrp kahnSort
  rw [kahnAux_stuck hS hin (graphNodes d).length (graphNodes d) hsub]

/-- Two items whose BOM edges form the cycle X → Y → X. -/
def c4ex : MRPInput :=
  { items := [{ id := ("X"), name := ("X"), lt := 0, ss := 0, oh := 0, ls := 1,
                type := ("Finished") },
              { id := ("Y"), name := ("Y"), lt := 0, ss := 0, oh := 0, ls := 1,
                type := ("Component") }],
    bom := [{ parent := ("X"), child := ("Y"), qty := 1 },
            { parent := ("Y"), child := ("X"), qty := 1 }],
    mps := [], horizon := 3 }

/-- Witness for the cyclic-BOM failure on the concrete cycle X → Y → X. -/
theorem run_mrp_cyclic_witness :
    hasCycle (edgePairs c4ex.bom) ∧ run_mrp c4ex = .error cyclicBOMmsg := by
  have h1 : edgeRel (edgePairs c4ex.bom) ("X") ("Y") := by
    show (("X"), ("Y")) ∈ edgePairs c4ex.bom
    decide
  have h2 : edgeRel (edgePairs c4ex.bom) ("Y") ("X") := by
    show (("Y"), ("X")) ∈ edgePairs c4ex.bom
    decide
  have hcyc : hasCycle (edgePairs c4ex.bom) :=
    ⟨("X"), [("Y")], List.Chain.cons h1 (List.Chain.cons h2 List.Chain.nil)⟩
  exact ⟨hcyc, run_mrp_cyclic c4ex hcyc⟩

end MRP
namespace MRP

/-- Input for claim C5: lot size 3 with the gross requirement
13510798882111495 (an odd integer just above 2^53, whose third lies just
above 2^52), chosen so that the binary64 lot-sizing arithmetic undershoots. -/
def c5ex : MRPInput :=
  { items := [{ id := ("A"), name := ("A"), lt := 0, ss := 0, oh := 0, ls := 3,
                type := ("Finished") }],
    bom := [], mps := [(("A"), [(1, 13510798882111495)])], horizon := 1 }

/-- The item of `c5ex`. -/
def c5item : Item :=
  { id := ("A"), name := ("A"), lt := 0, ss := 0, oh := 0, ls := 3,
    type := ("Finished") }

/-- The record produced by `run_mrp c5ex`: `net / 3 = 4503599627370498.33…`
rounds down to the float 4503599627370498.0, whose ceiling times 3 gives a
receipt of 13510798882111494.0 — one unit short of the net requirement — and
the float re-projection `receipt - fl64(grossReq)` stores −2.0. -/
def c5rec : PeriodRecord :=
  { period := 1, grossReq := 13510798882111495, schedReceipt := 0,
    projAvail := -2, netReq := 13510798882111495,
    plannedOrderReceipt := 13510798882111494,
    plannedOrderRelease := 13510798882111494 }

/-- Claim C5 counterexample.  The run on `c5ex` succeeds, yet the recorded
projected available balance is −2, below the safety stock 0: for a net
requirement beyond the 53-bit binary64 significand, `np.ceil(net / ls) * ls`
(src/main.py line 146) computes a receipt below the net requirement and line
148's float arithmetic stores a balance below the safety stock, refuting the
universal invariant. -/
theorem run_mrp_float_undershoot_counterexample :
    run_mrp c5ex = .ok [(("A"), [c5rec])] ∧ c5rec.projAvail < c5item.ss :=
  ⟨by rfl, by decide⟩

/-- Claim C5 as amended.  In every successful run in which every item has lot
size at most 1 — the lot-for-lot regime, where `np.ceil` is never called and
every number in the engine is an exact Python int — every recorded projected
available balance is at least the item's safety stock: the lot-for-lot
receipt restores the balance to exactly the safety stock, and the offsetting
pass leaves the `projAvail` column untouched. -/
theorem run_mrp_l4l_projAvail_ge_safety (d : MRPInput) (tbl : Results)
    (h : run_mrp d = .ok tbl) (hls : ∀ i ∈ d.items, i.ls ≤ 1) :
    ∀ p ∈ tbl, ∀ itm : Item, items_map d.items p.1 = some itm →
    ∀ r ∈ p.2, itm.ss ≤ r.projAvail := by
  unfold run_mrp at h
  split at h
  · exact absurd h (by simp)
  · rename_i sorted hsorted
    exact planItems_ss hls sorted [] tbl h (by intro p hp; cases hp)

/-- Input witnessing the amended C5: lot-for-lot, safety stock 5, demand 12. -/
def w5in : MRPInput :=
  { items := [{ id := ("A"), name := ("A"), lt := 0, ss := 5, oh := 0, ls := 1,
                type := ("Finished") }],
    bom := [], mps := [(("A"), [(1, 12)])], horizon := 1 }

/-- The item of `w5in`. -/
def w5item : Item :=
  { id := ("A"), name := ("A"), lt := 0, ss := 5, oh := 0, ls := 1,
    type := ("Finished") }

/-- The record produced by `run_mrp w5in`: the lot-for-lot receipt 17 lifts
the balance back to the safety stock 5. -/
def w5rec : PeriodRecord :=
  { period := 1, grossReq := 12, schedReceipt := 0, projAvail := 5,
    netReq := 17, plannedOrderReceipt := 17, plannedOrderRelease := 17 }

/-- Witness for the amended safety-stock invariant on a concrete run. -/
theorem run_mrp_l4l_projAvail_ge_safety_witness : w5item.ss ≤ w5rec.projAvail :=
  run_mrp_l4l_projAvail_ge_safety w5in [(("A"), [w5rec])] (by rfl) (by decide)
    ((("A"), [w5rec])) (List.mem_singleton.mpr rfl) w5item (by rfl)
    w5rec (List.mem_singleton.mpr rfl)

/-- Input for claim C6: the single BOM edge references child `B`, which is
not among the item ids. -/
def c6ex : MRPInput :=
  { items := [{ id := ("A"), name := ("A"), lt := 0, ss := 0, oh := 0, ls := 1,
                type := ("Finished") }],
    bom := [{ parent := ("A"), child := ("B"), qty := 1 }],
    mps := [], horizon := 1 }

/-- The record produced for item `A` of `c6ex`. -/
def c6rec : PeriodRecord :=
  { period := 1, grossReq := 0, schedReceipt := 0, projAvail := 0,
    netReq := 0, plannedOrderReceipt := 0, plannedOrderRelease := 0 }

/-- Claim C6 counterexample.  `c6ex` has a BOM edge whose child `B` is not an
item id, yet the run does not fail with any `UnknownItemError` — there is no
such validation in src/main.py (`nx.add_edge` silently creates the missing
node and line 97 silently skips ids without an item).  The run succeeds and
returns a table containing only the known item `A`. -/
theorem run_mrp_unknown_id_counterexample :
    run_mrp c6ex = .ok [(("A"), [c6rec])] ∧
    (c6ex.items.map Item.id).contains (("B")) = false ∧
    (c6ex.bom.map BomLine.child).contains (("B")) = true :=
  ⟨by rfl, by rfl, by rfl⟩

/-- Claim C6 as amended.  An edge referencing an unknown id never aborts the
run; the unknown id is simply skipped and gets no row: every key of a
successful run's table is the id of some input item. -/
theorem run_mrp_table_keys_known (d : MRPInput) (tbl : Results)
    (h : run_mrp d = .ok tbl) :
    ∀ p ∈ tbl, ∃ itm ∈ d.items, itm.id = p.1 := by
  unfold run_mrp at h
  split at h
  · exact absurd h (by simp)
  · rename_i sorted hsorted
    exact planItems_keys sorted [] tbl h (by intro p hp; cases hp)

/-- Witness for the amended C6 on the unknown-id input itself. -/
theorem run_mrp_table_keys_known_witness :
    ∃ itm ∈ c6ex.items, itm.id = ((("A"), [c6rec]) : String × List PeriodRecord).1 :=
  run_mrp_table_keys_known c6ex [(("A"), [c6rec])] (by rfl)
    ((("A"), [c6rec])) (List.mem_singleton.mpr rfl)

/-- Claim C7 counterexample.  With the negative independent demand −5 at
period 1, the run does not fail with any `InvalidDemandError` — src/main.py
performs no demand validation (the pydantic model of lines 40-44 accepts any
int and line 115 adds it straight into the gross requirement).  The run
succeeds, the negative demand simply inflating the projected balance. -/
theorem run_mrp_negative_demand_counterexample :
    run_mrp (c7input (-5)) = .ok [(("A"),
      [{ period := 1, grossReq := -5, schedReceipt := 0, projAvail := 5,
         netReq := 0, plannedOrderReceipt := 0, plannedOrderRelease := 0 }])] ∧
    mpsVal (c7input (-5)).mps ("A") 1 = -5 :=
  ⟨by rfl, by rfl⟩

/-- Witness for the amended C7 (`run_mrp_negative_demand`) at demand −3. -/
theorem run_mrp_negative_demand_witness :
    run_mrp (c7input (-3)) = .ok [(("A"),
      [{ period := 1, grossReq := -3, schedReceipt := 0, projAvail := -(-3),
         netReq := 0, plannedOrderReceipt := 0, plannedOrderRelease := 0 }])] :=
  run_mrp_negative_demand (-3) (by decide)

/-- Input for claim C8: zero demand everywhere, no parents, but on-hand 0 is
below the safety stock 5. -/
def c8ex : MRPInput :=
  { items := [{ id := ("A"), name := ("A"), lt := 0, ss := 5, oh := 0, ls := 1,
                type := ("Finished") }],
    bom := [], mps := [], horizon := 1 }

/-- The record produced by `run_mrp c8ex`. -/
def c8rec : PeriodRecord :=
  { period := 1, grossReq := 0, schedReceipt := 0, projAvail := 5,
    netReq := 5, plannedOrderReceipt := 5, plannedOrderRelease := 5 }

/-- Claim C8 counterexample.  Item `A` of `c8ex` has zero independent demand
in every period and no dependent demand (no BOM edges at all), yet its
period-1 planned order receipt is 5, not 0, and its projected balance is 5,
not the on-hand quantity 0: with on-hand below safety stock the engine orders
up to the safety stock even without any demand, refuting the claim. -/
theorem run_mrp_zero_demand_counterexample :
    run_mrp c8ex = .ok [(("A"), [c8rec])] ∧
    c8rec.plannedOrderReceipt = 5 ∧ c8rec.projAvail = 5 ∧
    mpsVal c8ex.mps ("A") 1 = 0 ∧ c8ex.bom.isEmpty = true :=
  ⟨by rfl, by rfl, by rfl, by rfl, by rfl⟩

/-- Claim C8 as amended.  For an item with zero independent demand in every
period, no BOM edge naming it as child, and on-hand at least the safety
stock, every period's planned order receipt is 0 and every projected balance
equals the on-hand quantity. -/
theorem run_mrp_zero_demand_holds_stock (d : MRPInput) (tbl : Results)
    (target : String) (itm : Item) (h : run_mrp d = .ok tbl)
    (hitm : items_map d.items target = some itm)
    (hmps : ∀ t : Nat, mpsVal d.mps target t = 0)
    (hnochild : ∀ e ∈ d.bom, e.child ≠ target)
    (hoh : itm.ss ≤ itm.oh) :
    ∀ p ∈ tbl, p.1 = target → ∀ r ∈ p.2,
      r.plannedOrderReceipt = 0 ∧ r.projAvail = itm.oh := by
  unfold run_mrp at h
  split at h
  · exact absurd h (by simp)
  · rename_i sorted hsorted
    have hnodup : sorted.Nodup := by
      unfold kahnSort at hsorted
      exact (kahnAux_nodup_sub _ _ _ (graphNodes_nodup d) hsorted).1
    exact planItems_zero hitm hmps hnochild hoh sorted [] tbl h hnodup
      (by intro p hp; cases hp) (by intro p hp; cases hp)

/-- Input witnessing the amended C8: on-hand 7 over safety stock 5. -/
def w8in : MRPInput :=
  { items := [{ id := ("A"), name := ("A"), lt := 0, ss := 5, oh := 7, ls := 1,
                type := ("Finished") }],
    bom := [], mps := [], horizon := 1 }

/-- The item of `w8in`. -/
def w8item : Item :=
  { id := ("A"), name := ("A"), lt := 0, ss := 5, oh := 7, ls := 1,
    type := ("Finished") }

/-- The record produced by `run_mrp w8in`: no order, balance stays at 7. -/
def w8rec : PeriodRecord :=
  { period := 1, grossReq := 0, schedReceipt := 0, projAvail := 7,
    netReq := 0, plannedOrderReceipt := 0, plannedOrderRelease := 0 }

/-- Witness for the amended C8 on a concrete run. -/
theorem run_mrp_zero_demand_holds_stock_witness :
    w8rec.plannedOrderReceipt = 0 ∧ w8rec.projAvail = w8item.oh :=
  run_mrp_zero_demand_holds_stock w8in [(("A"), [w8rec])] ("A") w8item
    (by rfl) (by rfl) (fun t => rfl)
    (fun e he => absurd he (List.not_mem_nil e))
    (by decide)
    ((("A"), [w8rec])) (List.mem_singleton.mpr rfl) (by rfl)
    w8rec (List.mem_singleton.mpr rfl)

/-- Claim C9.  The backward offsetting pass modifies only the
`plannedOrderRelease` field: the row keeps its length and every record keeps
its `period`, `grossReq`, `schedReceipt`, `projAvail`, `netReq` and
`plannedOrderReceipt` values. -/
theorem offsetPass_only_release (row row' : List PeriodRecord) (lt : Int)
    (h : offsetPass row lt = .ok row') :
    row'.length = row.length ∧
    (∀ i : Nat, ∀ r0 r1 : PeriodRecord, row[i]? = some r0 → row'[i]? = some r1 →
      r1.period = r0.period ∧ r1.grossReq = r0.grossReq ∧
      r1.schedReceipt = r0.schedReceipt ∧ r1.projAvail = r0.projAvail ∧
      r1.netReq = r0.netReq ∧ r1.plannedOrderReceipt = r0.plannedOrderReceipt) := by
  have hf := offsetPass_frame h
  refine ⟨hf.length_eq, ?_⟩
  intro i r0 r1 h0 h1
  have he := hf.rec_eq i
  rw [h0, h1] at he
  simp only [Option.map_some', Option.some.injEq] at he
  unfold eraseRelease at he
  injection he with e1 e2 e3 e4 e5 e6 e7
  exact ⟨e1, e2, e3, e4, e5, e6⟩

/-- Row used to witness the offsetting frame property: receipt 8 at
period 2, lead time 1. -/
def w9row : List PeriodRecord :=
  [{ period := 1, grossReq := 3, schedReceipt := 0, projAvail := 2,
     netReq := 0, plannedOrderReceipt := 0, plannedOrderRelease := 0 },
   { period := 2, grossReq := 9, schedReceipt := 0, projAvail := 1,
     netReq := 8, plannedOrderReceipt := 8, plannedOrderRelease := 0 }]

/-- Result of offsetting `w9row` with lead time 1. -/
def w9row' : List PeriodRecord :=
  [{ period := 1, grossReq := 3, schedReceipt := 0, projAvail := 2,
     netReq := 0, plannedOrderReceipt := 0, plannedOrderRelease := 8 },
   { period := 2, grossReq := 9, schedReceipt := 0, projAvail := 1,
     netReq := 8, plannedOrderReceipt := 8, plannedOrderRelease := 0 }]

/-- First record of `w9row`. -/
def w9r0 : PeriodRecord :=
  { period := 1, grossReq := 3, schedReceipt := 0, projAvail := 2,
    netReq := 0, plannedOrderReceipt := 0, plannedOrderRelease := 0 }

/-- First record of `w9row'`: only the release changed (it absorbed period
2's receipt of 8). -/
def w9r1 : PeriodRecord :=
  { period := 1, grossReq := 3, schedReceipt := 0, projAvail := 2,
    netReq := 0, plannedOrderReceipt := 0, plannedOrderRelease := 8 }

/-- Witness for the offsetting frame property on a concrete row. -/
theorem offsetPass_only_release_witness :
    w9r1.period = w9r0.period ∧ w9r1.grossReq = w9r0.grossReq ∧
    w9r1.schedReceipt = w9r0.schedReceipt ∧ w9r1.projAvail = w9r0.projAvail ∧
    w9r1.netReq = w9r0.netReq ∧
    w9r1.plannedOrderReceipt = w9r0.plannedOrderReceipt :=
  (offsetPass_only_release w9row w9row' 1 (by rfl)).2 0 w9r0 w9r1
    (by rfl) (by rfl)

/-- Claim C10.  The planning computation is a pure function of the input
payload: two runs on identical inputs return the identical table or the
identical failure. -/
theorem run_mrp_deterministic (d1 d2 : MRPInput) (h : d1 = d2) :
    run_mrp d1 = run_mrp d2 := by
  rw [h]

/-- Input used to witness determinism. -/
def w10in : MRPInput :=
  { items := [{ id := ("A"), name := ("A"), lt := 1, ss := 2, oh := 4, ls := 3,
                type := ("Finished") }],
    bom := [], mps := [(("A"), [(1, 6)])], horizon := 1 }

/-- Witness for determinism at a concrete input. -/
theorem run_mrp_deterministic_witness : run_mrp w10in = run_mrp w10in :=
  run_mrp_deterministic w10in w10in rfl

end MRP
